import Mathlib

/-!
Verification of the RADAE decoder/encoder sample-domain glue code
(streaming resamplers, Hilbert transform, FARGAN warm-up gating,
TX feature accumulation, EOO shutdown path, WAV recorder, batch
resampler, S16 output conversion).

Sample values and fractional positions are modelled exactly over ℚ;
machine integers are ℕ/ℤ with explicit wraparound where it matters.
-/

namespace Radae

/-- C truncation toward zero of a rational, as in a C cast from double to a
signed integer type. -/
def cTrunc (q : ℚ) : ℤ := if q < 0 then ⌈q⌉ else ⌊q⌋

/-- Read a list at a (possibly negative) integer index; out-of-range reads
return 0 (such reads never occur on the paths the theorems traverse). -/
def getI (l : List ℚ) (i : ℤ) : ℚ :=
  if 0 ≤ i then l.getD i.toNat 0 else 0

/-- Result of one streaming-resampler call: output samples, the updated
fractional position, and the updated previous-sample history. -/
structure RLS where
  out : List ℚ
  frac : ℚ
  prev : ℚ
  deriving DecidableEq, Repr

/-- One emitted sample of the streaming resampler loop: `idx = (int)frac`,
`f = frac - idx`, `s0 = (idx == 0) ? prev : in[idx-1]`, `s1 = in[idx]`,
emit `s0 + f * (s1 - s0)`. -/
def rlsEmit (inp : List ℚ) (prev frac : ℚ) : ℚ :=
  let idx := cTrunc frac
  let f : ℚ := frac - (idx : ℚ)
  let s0 : ℚ := if idx = 0 then prev else getI inp (idx - 1)
  let s1 : ℚ := getI inp idx
  s0 + f * (s1 - s0)

/-- The inner `while (n_out < max_out)` loop of `resample_linear_stream`
(`src/rade_decoder.cpp`, `src/rade_encoder.cpp`).  `fuel` is the remaining
output capacity; returns the emitted samples and the fractional position at
loop exit (before the final `frac -= n_in` adjustment). -/
def rlsLoop (inp : List ℚ) (prev : ℚ) (step : ℚ) : ℚ → ℕ → List ℚ × ℚ
  | frac, 0 => ([], frac)
  | frac, fuel + 1 =>
    if (inp.length : ℤ) ≤ cTrunc frac then ([], frac)
    else
      let r := rlsLoop inp prev step (frac + step) fuel
      (rlsEmit inp prev frac :: r.1, r.2)

/-- `resample_linear_stream` (identical in `rade_decoder.cpp:448` and
`rade_encoder.cpp:21`): streaming linear-interpolation resampler carrying
`frac` and `prev` across calls. -/
def resample_linear_stream (inp : List ℚ) (maxOut : ℕ)
    (rateIn rateOut : ℕ) (frac prev : ℚ) : RLS :=
  if rateIn = rateOut then
    { out := inp.take (min inp.length maxOut)
      frac := frac
      prev := if inp.length > 0 then inp.getLastD prev else prev }
  else
    let step : ℚ := (rateIn : ℚ) / (rateOut : ℚ)
    let r := rlsLoop inp prev step frac maxOut
    { out := r.1, frac := r.2 - (inp.length : ℚ), prev := if inp.length > 0 then inp.getLastD prev else prev }

/-- Result of feeding several consecutive chunks through the streaming
resampler.  `ok` records that no call exhausted its output capacity. -/
structure Feed where
  out : List ℚ
  frac : ℚ
  prev : ℚ
  ok : Bool
  deriving DecidableEq, Repr

/-- Feed a sequence of (chunk, output-capacity) pairs through consecutive
calls of `resample_linear_stream`, threading `frac` and `prev`. -/
def feedChunks (rateIn rateOut : ℕ) : List (List ℚ × ℕ) → ℚ → ℚ → Feed
  | [], frac, prev => { out := [], frac := frac, prev := prev, ok := true }
  | (c, cap) :: rest, frac, prev =>
    let r := resample_linear_stream c cap rateIn rateOut frac prev
    let rs := feedChunks rateIn rateOut rest r.frac r.prev
    { out := r.out ++ rs.out, frac := rs.frac, prev := rs.prev
      ok := decide (r.out.length < cap) && rs.ok }

/-! ### Constants (§3 of the spec / lpcnet & rade headers) -/

def RADE_FS : ℕ := 8000
def RADE_FS_SPEECH : ℕ := 16000
def LPCNET_FRAME_SIZE : ℕ := 160
def NB_TOTAL_FEATURES : ℕ := 36
def NB_FEATURES : ℕ := 20

/-! ### One-shot batch resampler (`resample_batch`, rade_decoder.cpp:142-163) -/

/-- The clamped source index and fraction for output sample `i` of
`resample_batch`: `pos = i * step`, `idx = (long)pos`, `frac = pos - idx`;
`if (idx + 1 >= n_in) { idx = n_in - 2; frac = 1; }`. -/
def batchIdxFrac (n_in in_rate out_rate : ℕ) (i : ℕ) : ℤ × ℚ :=
  let pos : ℚ := (i : ℚ) * ((in_rate : ℚ) / (out_rate : ℚ))
  let idx : ℤ := cTrunc pos
  let frac : ℚ := pos - (idx : ℚ)
  if (n_in : ℤ) ≤ idx + 1 then ((n_in : ℤ) - 2, 1) else (idx, frac)

/-- `resample_batch` (rade_decoder.cpp:142): one-shot linear-interpolation
resampler used for WAV file input.  Equal rates return the input unchanged;
fewer than 2 input samples return the empty list. -/
def resample_batch (inp : List ℚ) (in_rate out_rate : ℕ) : List ℚ :=
  if in_rate = out_rate then inp
  else if inp.length < 2 then []
  else
    (List.range (inp.length * out_rate / in_rate)).map (fun i =>
      let p := batchIdxFrac inp.length in_rate out_rate i
      getI inp p.1 + p.2 * (getI inp (p.1 + 1) - getI inp p.1))

/-! ### Float → S16 output conversion -/

/-- The sequential saturate-clip of both output converters:
`if (v > 32767) v = 32767; if (v < -32767) v = -32767;`. -/
def s16_clip (v : ℚ) : ℚ :=
  let v1 := if v > 32767 then (32767 : ℚ) else v
  if v1 < -32767 then (-32767 : ℚ) else v1

/-- RX output conversion of an already-scaled value
(rade_decoder.cpp:696-703): clip, then `floor(0.5 + v)`. -/
def rx_s16_of_scaled (v : ℚ) : ℤ := ⌊(1 : ℚ) / 2 + s16_clip v⌋

/-- RX full sample conversion: scale by 32768, then clip and round. -/
def rx_float_to_s16 (x : ℚ) : ℤ := rx_s16_of_scaled (x * 32768)

/-- TX output conversion of an already-scaled value
(rade_encoder.cpp:236-242): clip, then C cast truncation toward zero. -/
def tx_s16_of_scaled (v : ℚ) : ℤ := cTrunc (s16_clip v)

/-- Round-half-away-from-zero, the rounding the spec names for the RX
converter. -/
def round_half_away_from_zero (v : ℚ) : ℤ :=
  if 0 ≤ v then ⌊v + 1 / 2⌋ else -⌊-v + 1 / 2⌋

/-! ### RX warm-up / sync state machine (rade_decoder.cpp:611-719) -/

/-- Externally observable actions of one RX loop iteration. -/
inductive RxEvent where
  | farganInit : RxEvent
  | farganCont (packed : List ℚ) : RxEvent
  | writeSilence (n : ℕ) : RxEvent
  | writeSpeech (pcm : List ℤ) : RxEvent
  deriving DecidableEq, Repr

/-- The RX-loop state the sync/warm-up logic reads and writes.
`fargan_inits` counts calls of `fargan_init` (the opaque FARGAN state is
re-created by each call). -/
structure RxState where
  fargan_ready : Bool
  warmup_count : ℕ
  warmup_buf : List (List ℚ)
  output_primed : Bool
  was_synced : Bool
  fargan_inits : ℕ
  resamp_frac : ℚ
  resamp_prev : ℚ
  deriving DecidableEq, Repr

/-- The silence pre-fill count of rade_decoder.cpp:663-664:
`2 * 12 * LPCNET_FRAME_SIZE * (int)rate_out_ / RADE_FS_SPEECH`
(integer arithmetic, left-to-right). -/
def rxPrefill (rate_out : ℕ) : ℕ :=
  2 * 12 * LPCNET_FRAME_SIZE * rate_out / RADE_FS_SPEECH

/-- The pre-fill count as the spec sentence literally states it:
`2 * MODEM_FRAME_SAMPLES * 12 * SPEECH_FRAME * (device_rate / FS_SPEECH)`. -/
def c2SpecPrefill (rate_out : ℕ) : ℚ :=
  2 * 960 * 12 * 160 * ((rate_out : ℚ) / 16000)

/-- Write a frame at index `i` of a fixed buffer modelled as a growing list
(`memcpy(&warmup_buf_[i * NB_TOTAL_FEAT], ...)`). -/
def putFrame (buf : List (List ℚ)) (i : ℕ) (f : List ℚ) : List (List ℚ) :=
  if i < buf.length then buf.set i f else buf ++ [f]

/-- The sync-transition block (rade_decoder.cpp:622-630): on a falling edge
re-initialise FARGAN and reset the warm-up and priming state; in all cases
record `was_synced = now_synced`. -/
def rxSyncTransition (st : RxState) (now_synced : Bool) : RxState × List RxEvent :=
  if st.was_synced && !now_synced then
    ({ st with fargan_inits := st.fargan_inits + 1
               fargan_ready := false
               warmup_count := 0
               output_primed := false
               was_synced := now_synced }, [RxEvent.farganInit])
  else ({ st with was_synced := now_synced }, [])

/-- Processing of one decoded feature frame (rade_decoder.cpp:638-708):
warm-up buffering while FARGAN is not ready (with the one-shot pre-fill on
the fifth frame), synthesis + resample + S16 conversion + write once ready.
`synth` stands for the external `fargan_synthesize`. -/
def processOneFrame (synth : ℕ → List ℚ → List ℚ) (rate_out : ℕ)
    (st : RxState) (feat : List ℚ) : RxState × List RxEvent :=
  if st.fargan_ready = false then
    let buf := putFrame st.warmup_buf st.warmup_count feat
    let c := st.warmup_count + 1
    if 5 ≤ c then
      let packed := ((List.range 5).map (fun i => (buf.getD i []).take NB_FEATURES)).flatten
      let st1 := { st with warmup_buf := buf, warmup_count := c, fargan_ready := true }
      if st.output_primed = false then
        ({ st1 with output_primed := true },
         [RxEvent.farganCont packed, RxEvent.writeSilence (rxPrefill rate_out)])
      else (st1, [RxEvent.farganCont packed])
    else ({ st with warmup_buf := buf, warmup_count := c }, [])
  else
    let fpcm := synth st.fargan_inits feat
    let out_max := LPCNET_FRAME_SIZE * rate_out / RADE_FS_SPEECH + 4
    let r := resample_linear_stream fpcm out_max RADE_FS_SPEECH rate_out
               st.resamp_frac st.resamp_prev
    let pcm := r.out.map rx_float_to_s16
    ({ st with resamp_frac := r.frac, resamp_prev := r.prev },
     [RxEvent.writeSpeech pcm])

/-- Fold `processOneFrame` over the feature frames of one iteration. -/
def processFrames (synth : ℕ → List ℚ → List ℚ) (rate_out : ℕ) :
    RxState → List (List ℚ) → RxState × List RxEvent
  | st, [] => (st, [])
  | st, f :: rest =>
    let r := processOneFrame synth rate_out st f
    let rs := processFrames synth rate_out r.1 rest
    (rs.1, r.2 ++ rs.2)

/-- One iteration of the RX processing loop, restricted to the sync-edge and
feature-frame handling: the sync transition runs first, then the decoded
frames are processed. -/
def rxIterate (synth : ℕ → List ℚ → List ℚ) (rate_out : ℕ)
    (st : RxState) (now_synced : Bool) (frames : List (List ℚ)) :
    RxState × List RxEvent :=
  let t := rxSyncTransition st now_synced
  let p := processFrames synth rate_out t.1 frames
  (p.1, t.2 ++ p.2)

/-! ### Streaming Hilbert transform (`hilbert_process`, rade_decoder.cpp:411-439) -/

def idx127 (n : ℕ) : Fin 127 := ⟨n % 127, Nat.mod_lt n (by norm_num)⟩

/-- The two ring buffers and write indices of the streaming Hilbert
transform. -/
structure HilbState where
  hist : Fin 127 → ℚ
  pos : ℕ
  delay : Fin 127 → ℚ
  dpos : ℕ

/-- Reset state: zeroed rings, both write indices 0 (rade_decoder.cpp:278-281). -/
def hilbInit : HilbState :=
  { hist := fun _ => 0, pos := 0, delay := fun _ => 0, dpos := 0 }

/-- One sample of `hilbert_process`: store into the history ring, convolve
for the imaginary part, store into the delay ring and read 63 behind for the
real part, then advance both indices. -/
def hilbert_step (coeffs : Fin 127 → ℚ) (st : HilbState) (x : ℚ) :
    HilbState × (ℚ × ℚ) :=
  let hist := Function.update st.hist (idx127 st.pos) x
  let imag := ∑ k : Fin 127, coeffs k * hist (idx127 (st.pos + 127 - k.val))
  let delay := Function.update st.delay (idx127 st.dpos) x
  let real := delay (idx127 (st.dpos + 127 - 63))
  ({ hist := hist, pos := (st.pos + 1) % 127, delay := delay, dpos := (st.dpos + 1) % 127 },
   (real, imag))

/-- `hilbert_process` over a buffer of samples. -/
def hilbert_run (coeffs : Fin 127 → ℚ) : HilbState → List ℚ → HilbState × List (ℚ × ℚ)
  | st, [] => (st, [])
  | st, x :: xs =>
    let r := hilbert_step coeffs st x
    let rs := hilbert_run coeffs r.1 xs
    (rs.1, r.2 :: rs.2)

/-- `hilbert_process` applied to consecutive buffers with carried state. -/
def hilbert_chunks (coeffs : Fin 127 → ℚ) :
    HilbState → List (List ℚ) → HilbState × List (ℚ × ℚ)
  | st, [] => (st, [])
  | st, c :: cs =>
    let r := hilbert_run coeffs st c
    let rs := hilbert_chunks coeffs r.1 cs
    (rs.1, r.2 ++ rs.2)

/-- Contents of a one-write-per-step ring of size 127 after `k` writes of
`xs[0], xs[1], ...`: slot `j` holds the most recent `xs[m]` with
`m % 127 = j`, else 0. -/
def ringVal (xs : List ℚ) (k j : ℕ) : ℚ :=
  if j < k % 127 then xs.getD (k - k % 127 + j) 0
  else if 127 ≤ k then xs.getD (k - k % 127 + j - 127) 0
  else 0

/-! ### TX feature accumulation (rade_encoder.cpp:328-398) -/

/-- One `rade_tx` call: the value of `feat_count` at the call and the
12-frame feature buffer passed. -/
structure TxCall where
  countAtCall : ℕ
  frames : List (List ℚ)
  deriving DecidableEq, Repr

/-- The per-160-sample-block feature accumulation of the TX inner loop:
append the frame at index `feat_count`, increment, and when
`feat_count >= 12` call `rade_tx` with the accumulated buffer and reset
`feat_count = 0`.  Returns the final count, the buffer, and the calls made. -/
def txAccum : ℕ → List (List ℚ) → List (List ℚ) → ℕ × List (List ℚ) × List TxCall
  | fc, buf, [] => (fc, buf, [])
  | fc, buf, f :: rest =>
    let fc1 := fc + 1
    let buf1 := putFrame buf fc f
    if 12 ≤ fc1 then
      let r := txAccum 0 buf1 rest
      (r.1, r.2.1, ⟨fc1, buf1⟩ :: r.2.2)
    else
      let r := txAccum fc1 buf1 rest
      (r.1, r.2.1, r.2.2)

/-! ### TX shutdown path (rade_encoder.cpp:401-415) and stream semantics -/

/-- Externally observable actions of the TX shutdown block. -/
inductive TxEvent where
  | radeTxEoo : TxEvent
  | bpfApplied : TxEvent
  | audioWrite (pcm : List ℤ) : TxEvent
  | streamStop : TxEvent
  | streamStart : TxEvent
  | streamDrain : TxEvent
  deriving DecidableEq, Repr

/-- `write_real_to_output` (rade_encoder.cpp:207-247): take the real parts,
resample from the modem rate to the device rate, scale by `tx_scale`, clip,
truncate to S16, and return the PCM written plus the updated resampler
state. -/
def write_real_to_output (tx_scale : ℚ) (rate_modem rate_out : ℕ)
    (frac prev : ℚ) (iq : List (ℚ × ℚ)) : List ℤ × ℚ × ℚ :=
  let real := iq.map Prod.fst
  let out_max := iq.length * rate_out / rate_modem + 4
  let r := resample_linear_stream real out_max rate_modem rate_out frac prev
  (r.out.map (fun x => tx_s16_of_scaled (x * tx_scale)), r.frac, r.prev)

/-- The end-of-over block at the bottom of `RadaeEncoder::processing_loop`
(rade_encoder.cpp:401-415): if the RADE handle and the output stream are
still open, encode one EOO frame (`rade_tx_eoo`, external — passed in as
`eoo`), optionally band-pass filter it, push it through
`write_real_to_output`, then call `stream_out_.stop()` followed by
`stream_out_.start()`. -/
def txFinalize (bpf : List (ℚ × ℚ) → List (ℚ × ℚ)) (bpfEnabled : Bool)
    (eoo : List (ℚ × ℚ)) (tx_scale : ℚ) (rate_out : ℕ) (frac prev : ℚ)
    (radeOpen streamOpen : Bool) : List TxEvent :=
  if radeOpen && streamOpen then
    let sig := if bpfEnabled then bpf eoo else eoo
    let w := write_real_to_output tx_scale RADE_FS rate_out frac prev sig
    [TxEvent.radeTxEoo] ++ (if bpfEnabled then [TxEvent.bpfApplied] else [])
      ++ [TxEvent.audioWrite w.1, TxEvent.streamStop, TxEvent.streamStart]
  else []

/-- Playback-device semantics of the `AudioStream` operations (audio_stream.h
contract, ALSA and PulseAudio backends): `write` queues samples, `drain`
blocks until everything queued has been played, `stop` discards everything
queued (`snd_pcm_drop` / `pa_simple_flush`), `start` re-prepares. -/
structure DevState where
  queued : ℕ
  played : ℕ
  discarded : ℕ
  deriving DecidableEq, Repr

def devApply (d : DevState) : TxEvent → DevState
  | TxEvent.audioWrite pcm => { d with queued := d.queued + pcm.length }
  | TxEvent.streamStop => { d with queued := 0, discarded := d.discarded + d.queued }
  | TxEvent.streamDrain => { d with queued := 0, played := d.played + d.queued }
  | _ => d

def devRun (d : DevState) (evs : List TxEvent) : DevState := evs.foldl devApply d

/-- Total number of samples written by the audio-write events of a trace. -/
def writtenTotal (evs : List TxEvent) : ℕ :=
  (evs.map (fun e => match e with
    | TxEvent.audioWrite pcm => pcm.length
    | _ => 0)).sum

/-! ### WAV recorder (`WavRecorder`, src/unnamed/part_009) -/

def le16 (v : ℕ) : List ℕ := [v % 256, v / 256 % 256]

def le32 (v : ℕ) : List ℕ :=
  [v % 256, v / 256 % 256, v / 65536 % 256, v / 16777216 % 256]

/-- Two's-complement byte value of an S16 sample as `fwrite` stores it. -/
def u16_of_s16 (s : ℤ) : ℕ := (s % 65536).toNat

/-- The recorder state: the file contents as bytes, plus the bookkeeping
fields of `WavRecorder`. -/
structure WavRec where
  isOpen : Bool
  bytes : List ℕ
  sampleRate : ℕ
  channels : ℕ
  dataBytes : ℕ
  deriving DecidableEq, Repr

/-- `write_placeholder_header` (part_009:13-33): the 44-byte canonical PCM
WAV header with zeroed size fields. -/
def wav_header (sample_rate channels : ℕ) : List ℕ :=
  let bits := 16
  let block_align := channels * (bits / 8)
  let byte_rate := sample_rate * block_align
  [82, 73, 70, 70] ++ le32 0
    ++ [87, 65, 86, 69]
    ++ [102, 109, 116, 32] ++ le32 16
    ++ le16 1 ++ le16 channels ++ le32 sample_rate ++ le32 byte_rate
    ++ le16 block_align ++ le16 bits
    ++ [100, 97, 116, 97] ++ le32 0

/-- `WavRecorder::open`: (re)create the file and write the placeholder
header; `data_bytes_ = 0`. -/
def wavOpen (sample_rate channels : ℕ) : WavRec :=
  { isOpen := true, bytes := wav_header sample_rate channels,
    sampleRate := sample_rate, channels := channels, dataBytes := 0 }

/-- `WavRecorder::write` (part_009:58-68): under the mutex, append the
samples and add `2 * count` to the (32-bit) byte counter; no-op when closed
or when `count <= 0`. -/
def wavWrite (r : WavRec) (samples : List ℤ) : WavRec :=
  if samples.length = 0 then r
  else if r.isOpen = false then r
  else
    { r with bytes := r.bytes ++ (samples.map (fun s => le16 (u16_of_s16 s))).flatten
             dataBytes := (r.dataBytes + 2 * samples.length) % 4294967296 }

/-- Overwrite `repl` into `l` starting at byte offset `off` (an `fseek` +
`fwrite` on an existing region). -/
def overwriteAt (off : ℕ) (repl : List ℕ) (l : List ℕ) : List ℕ :=
  l.take off ++ repl ++ l.drop (off + repl.length)

/-- `WavRecorder::close` (part_009:70-87): patch the RIFF size at offset 4
and the data size at offset 40, then drop the file handle; idempotent. -/
def wavClose (r : WavRec) : WavRec :=
  if r.isOpen = false then r
  else
    let riff_size := (36 + r.dataBytes) % 4294967296
    let b1 := overwriteAt 4 (le32 riff_size) r.bytes
    let b2 := overwriteAt 40 (le32 r.dataBytes) b1
    { r with isOpen := false, bytes := b2, dataBytes := 0 }

/-- A sequence of `write` calls. -/
def wavWriteMany (r : WavRec) (chunks : List (List ℤ)) : WavRec :=
  chunks.foldl wavWrite r

/-! ## Theorems -/

/-! ### Facts about `cTrunc` and `getI` -/

lemma cTrunc_of_nonneg {q : ℚ} (h : 0 ≤ q) : cTrunc q = ⌊q⌋ := by
  unfold cTrunc
  rw [if_neg (not_lt.mpr h)]

lemma cTrunc_nonneg {q : ℚ} (h : 0 ≤ q) : 0 ≤ cTrunc q := by
  rw [cTrunc_of_nonneg h]
  exact Int.floor_nonneg.mpr h

lemma natCast_le_of_le_cTrunc {q : ℚ} {n : ℕ} (hq : 0 ≤ q) (h : (n : ℤ) ≤ cTrunc q) :
    (n : ℚ) ≤ q := by
  rw [cTrunc_of_nonneg hq] at h
  exact_mod_cast Int.le_floor.mp h

lemma cTrunc_sub_natCast {q : ℚ} {n : ℕ} (hq : (n : ℚ) ≤ q) :
    cTrunc (q - (n : ℚ)) = cTrunc q - (n : ℤ) := by
  have h0 : (0 : ℚ) ≤ q - n := by
    have : (0 : ℚ) ≤ (n : ℚ) := by positivity
    linarith
  have h1 : (0 : ℚ) ≤ q := by
    have : (0 : ℚ) ≤ (n : ℚ) := by positivity
    linarith
  rw [cTrunc_of_nonneg h0, cTrunc_of_nonneg h1]
  exact_mod_cast Int.floor_sub_nat q n

lemma cTrunc_le_cTrunc {p q : ℚ} (h0 : 0 ≤ p) (h : p ≤ q) : cTrunc p ≤ cTrunc q := by
  rw [cTrunc_of_nonneg h0, cTrunc_of_nonneg (h0.trans h)]
  exact Int.floor_le_floor h

lemma getI_append_left {a b : List ℚ} {i : ℤ} (h0 : 0 ≤ i) (h : i < (a.length : ℤ)) :
    getI (a ++ b) i = getI a i := by
  unfold getI
  rw [if_pos h0, if_pos h0, List.getD_eq_getElem?_getD, List.getD_eq_getElem?_getD,
    List.getElem?_append]
  rw [if_pos (by omega : i.toNat < a.length)]

lemma getI_append_right {a b : List ℚ} {i : ℤ} (h : (a.length : ℤ) ≤ i) :
    getI (a ++ b) i = getI b (i - (a.length : ℤ)) := by
  unfold getI
  have h0 : 0 ≤ i := le_trans (by positivity) h
  rw [if_pos h0, if_pos (by omega), List.getD_eq_getElem?_getD, List.getD_eq_getElem?_getD,
    List.getElem?_append]
  rw [if_neg (by omega : ¬ i.toNat < a.length)]
  rw [show i.toNat - a.length = (i - (a.length : ℤ)).toNat from by omega]

lemma getLastD_append (a b : List ℚ) (d : ℚ) :
    (a ++ b).getLastD d = b.getLastD (a.getLastD d) := by
  induction a generalizing d with
  | nil => rfl
  | cons x a ih =>
    rw [List.cons_append, List.getLastD_cons, List.getLastD_cons, ih]

lemma getI_cons_of_pos {x : ℚ} {l : List ℚ} {i : ℤ} (h : 1 ≤ i) :
    getI (x :: l) i = getI l (i - 1) := by
  have := @getI_append_right [x] l i (by simpa using h)
  simpa using this

lemma getI_last {a : List ℚ} (d : ℚ) (h : a ≠ []) :
    getI a ((a.length : ℤ) - 1) = a.getLastD d := by
  induction a generalizing d with
  | nil => exact absurd rfl h
  | cons x l ih =>
    rcases eq_or_ne l [] with rfl | hl
    · simp [getI]
    · have hpos : 0 < l.length := List.length_pos.mpr hl
      rw [getI_cons_of_pos (by simp; omega)]
      rw [show ((x :: l).length : ℤ) - 1 - 1 = (l.length : ℤ) - 1 from by
        rw [List.length_cons]; push_cast; ring]
      rw [ih x hl, List.getLastD_cons]

/-! ### The resampler loop: unfolding, fuel monotonicity, loop-exit facts -/

lemma rlsLoop_zero (inp : List ℚ) (prev step frac : ℚ) :
    rlsLoop inp prev step frac 0 = ([], frac) := rfl

lemma rlsLoop_break {inp : List ℚ} {frac : ℚ} (prev step : ℚ) (F : ℕ)
    (h : (inp.length : ℤ) ≤ cTrunc frac) :
    rlsLoop inp prev step frac (F + 1) = ([], frac) := by
  simp [rlsLoop, h]

lemma rlsLoop_emit {inp : List ℚ} {frac : ℚ} (prev step : ℚ) (F : ℕ)
    (h : ¬ (inp.length : ℤ) ≤ cTrunc frac) :
    rlsLoop inp prev step frac (F + 1)
      = (rlsEmit inp prev frac :: (rlsLoop inp prev step (frac + step) F).1,
         (rlsLoop inp prev step (frac + step) F).2) := by
  simp [rlsLoop, h]

lemma rlsLoop_fuel_mono (inp : List ℚ) (prev step : ℚ) :
    ∀ {F F2 : ℕ} {frac : ℚ}, F ≤ F2 →
    (rlsLoop inp prev step frac F).1.length < F →
    rlsLoop inp prev step frac F2 = rlsLoop inp prev step frac F := by
  intro F
  induction F with
  | zero => intro F2 frac _ hlen; exact absurd hlen (Nat.not_lt_zero _)
  | succ F ih =>
    intro F2 frac hle hlen
    obtain ⟨F2', rfl⟩ : ∃ k, F2 = k + 1 := ⟨F2 - 1, by omega⟩
    by_cases hb : (inp.length : ℤ) ≤ cTrunc frac
    · rw [rlsLoop_break prev step F2' hb, rlsLoop_break prev step F hb]
    · rw [rlsLoop_emit prev step F hb] at hlen ⊢
      rw [rlsLoop_emit prev step F2' hb]
      have hlen' : (rlsLoop inp prev step (frac + step) F).1.length < F := by
        simpa using hlen
      rw [ih (by omega) hlen']

lemma rlsLoop_break_of_ok (inp : List ℚ) (prev step : ℚ) :
    ∀ {F : ℕ} {frac : ℚ}, (rlsLoop inp prev step frac F).1.length < F →
    (inp.length : ℤ) ≤ cTrunc ((rlsLoop inp prev step frac F).2) := by
  intro F
  induction F with
  | zero => intro frac hlen; exact absurd hlen (Nat.not_lt_zero _)
  | succ F ih =>
    intro frac hlen
    by_cases hb : (inp.length : ℤ) ≤ cTrunc frac
    · rw [rlsLoop_break prev step F hb]
      exact hb
    · rw [rlsLoop_emit prev step F hb] at hlen ⊢
      exact ih (by simpa using hlen)

lemma rlsLoop_le_frac (inp : List ℚ) (prev step : ℚ) (hs : 0 ≤ step) :
    ∀ (F : ℕ) (frac : ℚ), frac ≤ (rlsLoop inp prev step frac F).2 := by
  intro F
  induction F with
  | zero => intro frac; exact le_refl _
  | succ F ih =>
    intro frac
    by_cases hb : (inp.length : ℤ) ≤ cTrunc frac
    · rw [rlsLoop_break prev step F hb]
    · rw [rlsLoop_emit prev step F hb]
      calc frac ≤ frac + step := by linarith
        _ ≤ _ := ih (frac + step)

/-! ### Shifting the loop past a fully-consumed first chunk -/

lemma rlsEmit_shift {a : List ℚ} (b : List ℚ) {frac : ℚ} (prev : ℚ)
    (h0 : 0 ≤ frac) (hidx : (a.length : ℤ) ≤ cTrunc frac) :
    rlsEmit (a ++ b) prev frac = rlsEmit b (a.getLastD prev) (frac - (a.length : ℚ)) := by
  have hge : (a.length : ℚ) ≤ frac := natCast_le_of_le_cTrunc h0 hidx
  have hshift : cTrunc (frac - (a.length : ℚ)) = cTrunc frac - (a.length : ℤ) :=
    cTrunc_sub_natCast hge
  have hi0 : 0 ≤ cTrunc frac := cTrunc_nonneg h0
  have hs1 : getI (a ++ b) (cTrunc frac) = getI b (cTrunc frac - (a.length : ℤ)) :=
    getI_append_right hidx
  have hf : frac - ((cTrunc frac : ℤ) : ℚ)
      = (frac - (a.length : ℚ)) - ((cTrunc frac - (a.length : ℤ) : ℤ) : ℚ) := by
    push_cast
    ring
  have hs0 : (if cTrunc frac = 0 then prev else getI (a ++ b) (cTrunc frac - 1))
      = (if cTrunc frac - (a.length : ℤ) = 0 then a.getLastD prev
         else getI b (cTrunc frac - (a.length : ℤ) - 1)) := by
    rcases eq_or_lt_of_le hidx with heq | hlt
    · have hz : cTrunc frac - (a.length : ℤ) = 0 := by omega
      rw [if_pos hz]
      rcases eq_or_ne a ([] : List ℚ) with rfl | ha
      · have h0' : cTrunc frac = 0 := by simpa using heq.symm
        rw [if_pos h0']
        rfl
      · have hApos : 0 < a.length := List.length_pos.mpr ha
        have hne : cTrunc frac ≠ 0 := by omega
        rw [if_neg hne]
        have hL : getI (a ++ b) (cTrunc frac - 1) = getI a ((a.length : ℤ) - 1) := by
          rw [← heq]
          exact getI_append_left (by omega) (by omega)
        rw [hL, getI_last prev ha]
    · have hne : cTrunc frac ≠ 0 := by omega
      have hne' : cTrunc frac - (a.length : ℤ) ≠ 0 := by omega
      rw [if_neg hne, if_neg hne']
      rw [getI_append_right (by omega : (a.length : ℤ) ≤ cTrunc frac - 1)]
      congr 1
      ring
  dsimp only [rlsEmit]
  rw [hshift, hs1, hs0, hf]

lemma rlsLoop_shift (a b : List ℚ) (prev step : ℚ) (hs : 0 ≤ step) :
    ∀ (F : ℕ) (frac : ℚ), 0 ≤ frac → (a.length : ℤ) ≤ cTrunc frac →
    rlsLoop (a ++ b) prev step frac F
      = ((rlsLoop b (a.getLastD prev) step (frac - (a.length : ℚ)) F).1,
         (rlsLoop b (a.getLastD prev) step (frac - (a.length : ℚ)) F).2 + (a.length : ℚ)) := by
  intro F
  induction F with
  | zero =>
    intro frac _ _
    rw [rlsLoop_zero, rlsLoop_zero]
    norm_num
  | succ F ih =>
    intro frac h0 hidx
    have hge : (a.length : ℚ) ≤ frac := natCast_le_of_le_cTrunc h0 hidx
    have hshift : cTrunc (frac - (a.length : ℚ)) = cTrunc frac - (a.length : ℤ) :=
      cTrunc_sub_natCast hge
    by_cases hb : ((a ++ b).length : ℤ) ≤ cTrunc frac
    · have hb' : (b.length : ℤ) ≤ cTrunc (frac - (a.length : ℚ)) := by
        rw [hshift]
        rw [List.length_append] at hb
        push_cast at hb ⊢
        omega
      rw [rlsLoop_break prev step F hb, rlsLoop_break (a.getLastD prev) step F hb']
      norm_num
    · have hb' : ¬ (b.length : ℤ) ≤ cTrunc (frac - (a.length : ℚ)) := by
        rw [hshift]
        rw [List.length_append] at hb
        push_cast at hb ⊢
        omega
      rw [rlsLoop_emit prev step F hb, rlsLoop_emit (a.getLastD prev) step F hb']
      have harr : frac + step - (a.length : ℚ) = frac - (a.length : ℚ) + step := by ring
      have hidx' : (a.length : ℤ) ≤ cTrunc (frac + step) :=
        le_trans hidx (cTrunc_le_cTrunc h0 (by linarith))
      have hrec := ih (frac + step) (by linarith) hidx'
      rw [harr] at hrec
      rw [hrec, rlsEmit_shift b prev h0 hidx]

/-! ### Splitting a single loop run into two consecutive chunk runs -/

lemma rlsEmit_append_left {a : List ℚ} (b : List ℚ) {frac : ℚ} (prev : ℚ)
    (h0 : 0 ≤ frac) (hidx : ¬ (a.length : ℤ) ≤ cTrunc frac) :
    rlsEmit (a ++ b) prev frac = rlsEmit a prev frac := by
  have hi0 : 0 ≤ cTrunc frac := cTrunc_nonneg h0
  have hs1 : getI (a ++ b) (cTrunc frac) = getI a (cTrunc frac) :=
    getI_append_left hi0 (by omega)
  have hs0 : (if cTrunc frac = 0 then prev else getI (a ++ b) (cTrunc frac - 1))
      = (if cTrunc frac = 0 then prev else getI a (cTrunc frac - 1)) := by
    rcases eq_or_ne (cTrunc frac) 0 with hz | hz
    · rw [if_pos hz, if_pos hz]
    · rw [if_neg hz, if_neg hz, getI_append_left (by omega) (by omega)]
  dsimp only [rlsEmit]
  rw [hs1, hs0]

lemma rlsLoop_split (a b : List ℚ) (prev step : ℚ) (hs : 0 ≤ step) :
    ∀ (F : ℕ) (frac : ℚ), 0 ≤ frac →
    (rlsLoop (a ++ b) prev step frac F).1.length < F →
    rlsLoop (a ++ b) prev step frac F
      = ((rlsLoop a prev step frac F).1
           ++ (rlsLoop b (a.getLastD prev) step
                ((rlsLoop a prev step frac F).2 - (a.length : ℚ)) F).1,
         (rlsLoop b (a.getLastD prev) step
            ((rlsLoop a prev step frac F).2 - (a.length : ℚ)) F).2 + (a.length : ℚ)) := by
  intro F
  induction F with
  | zero => intro frac _ hlen; exact absurd hlen (Nat.not_lt_zero _)
  | succ F ih =>
    intro frac h0 hlen
    by_cases hba : (a.length : ℤ) ≤ cTrunc frac
    · rw [rlsLoop_break prev step F hba]
      rw [rlsLoop_shift a b prev step hs (F + 1) frac h0 hba]
      rw [List.nil_append]
    · have hbab : ¬ ((a ++ b).length : ℤ) ≤ cTrunc frac := by
        rw [List.length_append]
        push_cast
        push_cast at hba
        omega
      rw [rlsLoop_emit prev step F hbab] at hlen ⊢
      rw [rlsLoop_emit prev step F hba]
      have hlen' : (rlsLoop (a ++ b) prev step (frac + step) F).1.length < F := by
        simpa using hlen
      have hrec := ih (frac + step) (by linarith) hlen'
      rw [hrec]
      have hblen : (rlsLoop b (a.getLastD prev) step
          ((rlsLoop a prev step (frac + step) F).2 - (a.length : ℚ)) F).1.length < F := by
        rw [hrec] at hlen'
        simp only [List.length_append] at hlen'
        omega
      rw [rlsLoop_fuel_mono b (a.getLastD prev) step (Nat.le_succ F) hblen]
      rw [rlsEmit_append_left b prev h0 hba, List.cons_append]

/-! ### Wrapper-level facts about `resample_linear_stream` -/

lemma rls_eq_rate (inp : List ℚ) (cap rOut : ℕ) (frac prev : ℚ) :
    resample_linear_stream inp cap rOut rOut frac prev
      = { out := inp.take (min inp.length cap), frac := frac, prev := inp.getLastD prev } := by
  unfold resample_linear_stream
  rw [if_pos rfl]
  rcases inp with _ | ⟨x, l⟩ <;> simp

lemma rls_ne_rate {rIn rOut : ℕ} (h : rIn ≠ rOut) (inp : List ℚ) (cap : ℕ) (frac prev : ℚ) :
    resample_linear_stream inp cap rIn rOut frac prev
      = { out := (rlsLoop inp prev ((rIn : ℚ) / (rOut : ℚ)) frac cap).1
          frac := (rlsLoop inp prev ((rIn : ℚ) / (rOut : ℚ)) frac cap).2 - (inp.length : ℚ)
          prev := inp.getLastD prev } := by
  unfold resample_linear_stream
  rw [if_neg h]
  rcases inp with _ | ⟨x, l⟩ <;> simp

lemma rls_cap_indep {inp : List ℚ} {cap1 cap2 rIn rOut : ℕ} {frac prev : ℚ}
    (h1 : (resample_linear_stream inp cap1 rIn rOut frac prev).out.length < cap1)
    (h2 : (resample_linear_stream inp cap2 rIn rOut frac prev).out.length < cap2) :
    resample_linear_stream inp cap1 rIn rOut frac prev
      = resample_linear_stream inp cap2 rIn rOut frac prev := by
  by_cases he : rIn = rOut
  · subst he
    rw [rls_eq_rate] at h1 h2 ⊢
    rw [rls_eq_rate]
    simp only [List.length_take] at h1 h2
    have e1 : min inp.length cap1 = inp.length := by omega
    have e2 : min inp.length cap2 = inp.length := by omega
    rw [e1, e2]
  · rw [rls_ne_rate he] at h1 h2 ⊢
    rw [rls_ne_rate he]
    simp only at h1 h2
    rcases Nat.le_total cap1 cap2 with h | h
    · rw [rlsLoop_fuel_mono inp prev _ h h1]
    · rw [rlsLoop_fuel_mono inp prev _ h h2]

lemma rls_frac_nonneg {inp : List ℚ} {cap rIn rOut : ℕ} {frac prev : ℚ}
    (hok : (resample_linear_stream inp cap rIn rOut frac prev).out.length < cap)
    (h0 : 0 ≤ frac) :
    0 ≤ (resample_linear_stream inp cap rIn rOut frac prev).frac := by
  by_cases he : rIn = rOut
  · subst he
    rw [rls_eq_rate]
    exact h0
  · rw [rls_ne_rate he] at hok ⊢
    simp only at hok ⊢
    have hs : (0 : ℚ) ≤ (rIn : ℚ) / (rOut : ℚ) := by positivity
    have hmono := rlsLoop_le_frac inp prev ((rIn : ℚ) / (rOut : ℚ)) hs cap frac
    have hbreak := rlsLoop_break_of_ok inp prev ((rIn : ℚ) / (rOut : ℚ)) hok
    have hge : (inp.length : ℚ) ≤ (rlsLoop inp prev ((rIn : ℚ) / (rOut : ℚ)) frac cap).2 :=
      natCast_le_of_le_cTrunc (le_trans h0 hmono) hbreak
    linarith

lemma rls_append {a b : List ℚ} {cap rIn rOut : ℕ} {frac prev : ℚ}
    (h0 : 0 ≤ frac)
    (hok : (resample_linear_stream (a ++ b) cap rIn rOut frac prev).out.length < cap) :
    resample_linear_stream (a ++ b) cap rIn rOut frac prev
      = { out := (resample_linear_stream a cap rIn rOut frac prev).out
             ++ (resample_linear_stream b cap rIn rOut
                  (resample_linear_stream a cap rIn rOut frac prev).frac
                  (resample_linear_stream a cap rIn rOut frac prev).prev).out
          frac := (resample_linear_stream b cap rIn rOut
                  (resample_linear_stream a cap rIn rOut frac prev).frac
                  (resample_linear_stream a cap rIn rOut frac prev).prev).frac
          prev := (resample_linear_stream b cap rIn rOut
                  (resample_linear_stream a cap rIn rOut frac prev).frac
                  (resample_linear_stream a cap rIn rOut frac prev).prev).prev } := by
  by_cases he : rIn = rOut
  · subst he
    simp only [rls_eq_rate] at hok ⊢
    simp only [List.length_take, List.length_append] at hok
    have hab : a.length + b.length < cap := by omega
    have ea : min a.length cap = a.length := by omega
    have eb : min b.length cap = b.length := by omega
    have eab : min (a ++ b).length cap = (a ++ b).length := by
      rw [List.length_append]; omega
    simp only [ea, eb, eab, List.take_length, RLS.mk.injEq]
    refine ⟨by trivial, by trivial, ?_⟩
    exact getLastD_append a b prev
  · simp only [rls_ne_rate he] at hok ⊢
    have hs : (0 : ℚ) ≤ (rIn : ℚ) / (rOut : ℚ) := by positivity
    have hsplit := rlsLoop_split a b prev ((rIn : ℚ) / (rOut : ℚ)) hs cap frac h0 hok
    rw [hsplit]
    simp only [RLS.mk.injEq]
    refine ⟨by trivial, ?_, getLastD_append a b prev⟩
    simp only [List.length_append]
    push_cast
    ring

lemma rls_nil {cap rIn rOut : ℕ} {frac prev : ℚ} (h0 : 0 ≤ frac) (hcap : 0 < cap) :
    resample_linear_stream [] cap rIn rOut frac prev
      = { out := [], frac := frac, prev := prev } := by
  by_cases he : rIn = rOut
  · subst he
    rw [rls_eq_rate]
    simp
  · rw [rls_ne_rate he]
    obtain ⟨F, rfl⟩ : ∃ k, cap = k + 1 := ⟨cap - 1, by omega⟩
    rw [rlsLoop_break prev _ F (by simpa using cTrunc_nonneg h0)]
    simp

lemma feed_eq_single (rIn rOut capS : ℕ) :
    ∀ (chunks : List (List ℚ × ℕ)) (frac prev : ℚ), 0 ≤ frac →
    (feedChunks rIn rOut chunks frac prev).ok = true →
    (resample_linear_stream (chunks.map Prod.fst).flatten capS rIn rOut frac prev).out.length
      < capS →
    (feedChunks rIn rOut chunks frac prev).out
        = (resample_linear_stream (chunks.map Prod.fst).flatten capS rIn rOut frac prev).out
    ∧ (feedChunks rIn rOut chunks frac prev).frac
        = (resample_linear_stream (chunks.map Prod.fst).flatten capS rIn rOut frac prev).frac
    ∧ (feedChunks rIn rOut chunks frac prev).prev
        = (resample_linear_stream (chunks.map Prod.fst).flatten capS rIn rOut frac prev).prev
  | [], frac, prev, h0, hokM, hokS => by
    have hcap : 0 < capS := by omega
    simp only [List.map_nil, List.flatten_nil] at hokS ⊢
    rw [rls_nil h0 hcap]
    exact ⟨rfl, rfl, rfl⟩
  | (c, cap) :: rest, frac, prev, h0, hokM, hokS => by
    simp only [List.map_cons, List.flatten_cons] at hokS ⊢
    simp only [feedChunks, Bool.and_eq_true, decide_eq_true_eq] at hokM
    obtain ⟨hM1, hMrest⟩ := hokM
    have hdecomp := @rls_append c ((rest.map Prod.fst).flatten)
      capS rIn rOut frac prev h0 hokS
    have hlen : (resample_linear_stream (c ++ (rest.map Prod.fst).flatten)
        capS rIn rOut frac prev).out.length
        = (resample_linear_stream c capS rIn rOut frac prev).out.length
          + (resample_linear_stream (rest.map Prod.fst).flatten capS rIn rOut
              (resample_linear_stream c capS rIn rOut frac prev).frac
              (resample_linear_stream c capS rIn rOut frac prev).prev).out.length := by
      rw [hdecomp]
      exact List.length_append _ _
    have hok1 : (resample_linear_stream c capS rIn rOut frac prev).out.length < capS := by
      omega
    have hok2 : (resample_linear_stream (rest.map Prod.fst).flatten capS rIn rOut
        (resample_linear_stream c capS rIn rOut frac prev).frac
        (resample_linear_stream c capS rIn rOut frac prev).prev).out.length < capS := by
      omega
    have hindep : resample_linear_stream c cap rIn rOut frac prev
        = resample_linear_stream c capS rIn rOut frac prev := rls_cap_indep hM1 hok1
    have h0' : 0 ≤ (resample_linear_stream c capS rIn rOut frac prev).frac :=
      rls_frac_nonneg hok1 h0
    have hMrest' : (feedChunks rIn rOut rest
        (resample_linear_stream c capS rIn rOut frac prev).frac
        (resample_linear_stream c capS rIn rOut frac prev).prev).ok = true := by
      rw [← hindep]
      exact hMrest
    obtain ⟨hO, hF, hP⟩ := feed_eq_single rIn rOut capS rest
      (resample_linear_stream c capS rIn rOut frac prev).frac
      (resample_linear_stream c capS rIn rOut frac prev).prev h0' hMrest' hok2
    rw [hdecomp]
    simp only [feedChunks, hindep]
    exact ⟨by rw [hO], by rw [hF], by rw [hP]⟩

lemma feed_singleton (rIn rOut cap : ℕ) (c : List ℚ) (frac prev : ℚ) :
    feedChunks rIn rOut [(c, cap)] frac prev
      = { out := (resample_linear_stream c cap rIn rOut frac prev).out
          frac := (resample_linear_stream c cap rIn rOut frac prev).frac
          prev := (resample_linear_stream c cap rIn rOut frac prev).prev
          ok := decide ((resample_linear_stream c cap rIn rOut frac prev).out.length < cap) } := by
  simp [feedChunks]

/-- C1: for every input sequence and every way of splitting it into consecutive
chunks, feeding the chunks one by one through `resample_linear_stream` (with
`frac` and `prev` carried across calls, starting from `frac = 0`, `prev = 0`,
and output capacity never exhausted) produces exactly the same output sequence
— and the same final `frac` and `prev` — as feeding the whole input in a
single call. -/
theorem resampler_chunk_invariance (rIn rOut : ℕ) (chunks : List (List ℚ × ℕ)) (capS : ℕ)
    (hM : (feedChunks rIn rOut chunks 0 0).ok = true)
    (hS : (feedChunks rIn rOut [((chunks.map Prod.fst).flatten, capS)] 0 0).ok = true) :
    (feedChunks rIn rOut chunks 0 0).out
        = (feedChunks rIn rOut [((chunks.map Prod.fst).flatten, capS)] 0 0).out
    ∧ (feedChunks rIn rOut chunks 0 0).frac
        = (feedChunks rIn rOut [((chunks.map Prod.fst).flatten, capS)] 0 0).frac
    ∧ (feedChunks rIn rOut chunks 0 0).prev
        = (feedChunks rIn rOut [((chunks.map Prod.fst).flatten, capS)] 0 0).prev := by
  rw [feed_singleton] at hS ⊢
  have hS' : (resample_linear_stream (chunks.map Prod.fst).flatten capS rIn rOut 0 0).out.length
      < capS := by
    simpa using hS
  exact feed_eq_single rIn rOut capS chunks 0 0 le_rfl hM hS'

theorem resampler_chunk_invariance_witness :
    (feedChunks 1 1 [([(1 : ℚ)], 2), ([2, 3], 3)] 0 0).out
      = (feedChunks 1 1 [(([([(1 : ℚ)], 2), ([2, 3], 3)].map Prod.fst).flatten, 4)] 0 0).out :=
  (resampler_chunk_invariance 1 1 [([(1 : ℚ)], 2), ([2, 3], 3)] 4 (by decide) (by decide)).1

/-! ### C10: batch resampler -/

/-- C10: for every input buffer with `n_in >= 2` and distinct positive rates,
`resample_batch` returns exactly `floor(n_in * out_rate / in_rate)` samples
and every input index it reads (the clamped `idx` and `idx + 1`) lies within
`[0, n_in - 1]`; when the rates are equal the input is returned unchanged. -/
theorem batch_resampler_bounds (inp : List ℚ) (in_rate out_rate : ℕ)
    (h2 : 2 ≤ inp.length) :
    (in_rate ≠ out_rate →
      (resample_batch inp in_rate out_rate).length = inp.length * out_rate / in_rate
      ∧ ∀ i, i < inp.length * out_rate / in_rate →
          0 ≤ (batchIdxFrac inp.length in_rate out_rate i).1
          ∧ (batchIdxFrac inp.length in_rate out_rate i).1 + 1 ≤ (inp.length : ℤ) - 1)
    ∧ (in_rate = out_rate → resample_batch inp in_rate out_rate = inp) := by
  constructor
  · intro hne
    constructor
    · unfold resample_batch
      rw [if_neg hne, if_neg (by omega)]
      simp
    · intro i hi
      simp only [batchIdxFrac]
      split
      · constructor
        · simp only
          omega
        · simp only
          omega
      · rename_i hcl
        have hp0 : 0 ≤ (i : ℚ) * ((in_rate : ℚ) / (out_rate : ℚ)) := by positivity
        exact ⟨cTrunc_nonneg hp0, by omega⟩
  · intro he
    unfold resample_batch
    rw [if_pos he]

theorem batch_resampler_bounds_witness :
    (resample_batch [(0 : ℚ), 1] 2 1).length = [(0 : ℚ), 1].length * 1 / 2 :=
  ((batch_resampler_bounds [(0 : ℚ), 1] 2 1 (by decide)).1 (by decide)).1

/-! ### C8: RX float→S16 conversion -/

/-- C8 counterexample: the claim says the in-range rounding is
round-half-away-from-zero, but at the scaled value `v = -1/2` the code
(`floor(0.5 + v)`) produces 0 while round-half-away-from-zero produces -1. -/
theorem rx_s16_rounding_counterexample :
    rx_s16_of_scaled (-(1 : ℚ) / 2) = 0
    ∧ round_half_away_from_zero (-(1 : ℚ) / 2) = -1
    ∧ rx_s16_of_scaled (-(1 : ℚ) / 2) ≠ round_half_away_from_zero (-(1 : ℚ) / 2) := by
  refine ⟨?_, ?_, ?_⟩
  · unfold rx_s16_of_scaled s16_clip
    norm_num
  · unfold round_half_away_from_zero
    norm_num
  · unfold rx_s16_of_scaled s16_clip round_half_away_from_zero
    norm_num

/-- C8 (amended): the RX float-to-S16 conversion maps any scaled value `v`
with `|v| > 32767` to exactly `32767` / `-32767`, and rounds every in-range
value with round-half-up semantics, `floor(0.5 + v)`; this agrees with
round-half-away-from-zero except when `v + 1/2` is an exact integer with
`v < 0`. -/
theorem rx_s16_conversion (v : ℚ) :
    (32767 < v → rx_s16_of_scaled v = 32767)
    ∧ (v < -32767 → rx_s16_of_scaled v = -32767)
    ∧ (|v| ≤ 32767 → rx_s16_of_scaled v = ⌊v + 1 / 2⌋)
    ∧ (|v| ≤ 32767 → (¬ ∃ k : ℤ, v + 1 / 2 = (k : ℚ)) →
        rx_s16_of_scaled v = round_half_away_from_zero v) := by
  have hclip : s16_clip v
      = if 32767 < v then 32767 else if v < -32767 then -32767 else v := by
    unfold s16_clip
    by_cases h1 : v > 32767
    · rw [if_pos h1]
      rw [if_neg (by norm_num), if_pos h1]
    · rw [if_neg h1, if_neg h1]
  have hclip_in : |v| ≤ 32767 → s16_clip v = v := by
    intro h
    rw [abs_le] at h
    rw [hclip, if_neg (by linarith), if_neg (by linarith)]
  refine ⟨?_, ?_, ?_, ?_⟩
  · intro h
    unfold rx_s16_of_scaled
    rw [hclip, if_pos h, Int.floor_eq_iff]
    constructor <;> norm_num
  · intro h
    unfold rx_s16_of_scaled
    rw [hclip, if_neg (by linarith), if_pos h, Int.floor_eq_iff]
    constructor <;> norm_num
  · intro h
    unfold rx_s16_of_scaled
    rw [hclip_in h, add_comm]
  · intro h hni
    unfold rx_s16_of_scaled round_half_away_from_zero
    rw [hclip_in h]
    rcases le_or_lt 0 v with hv | hv
    · rw [if_pos hv, add_comm]
    · rw [if_neg (not_le.mpr hv)]
      have hne : ((⌊v + 1 / 2⌋ : ℤ) : ℚ) ≠ v + 1 / 2 := by
        intro hc
        exact hni ⟨⌊v + 1 / 2⌋, hc.symm⟩
      have hlt : ((⌊v + 1 / 2⌋ : ℤ) : ℚ) < v + 1 / 2 :=
        lt_of_le_of_ne (Int.floor_le _) hne
      have hup : v + 1 / 2 < (⌊v + 1 / 2⌋ : ℚ) + 1 := Int.lt_floor_add_one _
      have : ⌊-v + 1 / 2⌋ = -⌊v + 1 / 2⌋ := by
        rw [Int.floor_eq_iff]
        constructor
        · push_cast
          linarith
        · push_cast
          linarith
      rw [add_comm ((1 : ℚ) / 2) v, this]
      ring

theorem rx_s16_conversion_witness :
    rx_s16_of_scaled 40000 = 32767 ∧ rx_s16_of_scaled (-40000) = -32767 :=
  ⟨(rx_s16_conversion 40000).1 (by norm_num),
   (rx_s16_conversion (-40000)).2.1 (by norm_num)⟩

/-! ### C2: the silence pre-fill on FARGAN priming -/

/-- C2 counterexample: at `device_rate = 16000` the code pre-fills 3840
silence samples (the event emitted on the priming step), while the claimed
formula `2 * MODEM_FRAME_SAMPLES * 12 * SPEECH_FRAME * (device_rate /
FS_SPEECH)` gives 3 686 400. -/
theorem rx_prefill_counterexample :
    (processOneFrame (fun _ _ => []) 16000
        { fargan_ready := false, warmup_count := 4, warmup_buf := [[], [], [], []],
          output_primed := false, was_synced := true, fargan_inits := 0,
          resamp_frac := 0, resamp_prev := 0 } []).2
      = [RxEvent.farganCont [], RxEvent.writeSilence 3840]
    ∧ c2SpecPrefill 16000 = 3686400
    ∧ (3840 : ℚ) ≠ 3686400 := by
  refine ⟨?_, ?_, by norm_num⟩
  · decide
  · unfold c2SpecPrefill
    norm_num

/-- C2 (amended): on the warm-up completion that primes FARGAN (fifth
warm-up frame, `output_primed` still false), the RX loop pre-fills the
output device with exactly `2 * 12 * SPEECH_FRAME * device_rate /
FS_SPEECH` silence samples (integer arithmetic) — two modem frames' worth
of speech samples at the device rate — and that is the only silence write
of the step. -/
theorem rx_prefill_amended (synth : ℕ → List ℚ → List ℚ) (rate_out : ℕ)
    (st : RxState) (feat : List ℚ)
    (h1 : st.fargan_ready = false) (h2 : st.warmup_count = 4)
    (h3 : st.output_primed = false) :
    RxEvent.writeSilence (2 * 12 * LPCNET_FRAME_SIZE * rate_out / RADE_FS_SPEECH)
      ∈ (processOneFrame synth rate_out st feat).2
    ∧ ∀ n, RxEvent.writeSilence n ∈ (processOneFrame synth rate_out st feat).2 →
        n = 2 * 12 * LPCNET_FRAME_SIZE * rate_out / RADE_FS_SPEECH := by
  unfold processOneFrame
  rw [if_pos h1, h2]
  rw [if_pos (by norm_num : 5 ≤ 4 + 1), if_pos h3]
  constructor
  · simp [rxPrefill]
  · intro n hn
    simp only [List.mem_cons, List.mem_singleton] at hn
    rcases hn with h | h | h
    · exact absurd h (by simp)
    · simp only [RxEvent.writeSilence.injEq] at h
      rw [h]
      rfl
    · exact absurd h (by simp)

theorem rx_prefill_amended_witness :
    RxEvent.writeSilence (2 * 12 * LPCNET_FRAME_SIZE * 16000 / RADE_FS_SPEECH)
      ∈ (processOneFrame (fun _ _ => []) 16000
          { fargan_ready := false, warmup_count := 4, warmup_buf := [[], [], [], []],
            output_primed := false, was_synced := true, fargan_inits := 0,
            resamp_frac := 0, resamp_prev := 0 } []).2 :=
  (rx_prefill_amended (fun _ _ => []) 16000
    { fargan_ready := false, warmup_count := 4, warmup_buf := [[], [], [], []],
      output_primed := false, was_synced := true, fargan_inits := 0,
      resamp_frac := 0, resamp_prev := 0 } [] (by decide) (by decide) (by decide)).1

/-! ### C4: sync falling edge resets the warm-up machinery -/

/-- C4: in every RX-loop iteration that observes a sync falling edge
(`was_synced` true, `now_synced` false), FARGAN is re-initialised
(`fargan_inits` is bumped and the `farganInit` event is emitted) and
`fargan_ready`, `warmup_count` and `output_primed` are all reset before the
iteration's frames are processed: the whole iteration behaves exactly as
frame processing started from the fully reset state. -/
theorem rx_sync_falling_edge_reset (synth : ℕ → List ℚ → List ℚ) (rate_out : ℕ)
    (st : RxState) (frames : List (List ℚ)) (h : st.was_synced = true) :
    rxIterate synth rate_out st false frames
      = ((processFrames synth rate_out
            { st with fargan_inits := st.fargan_inits + 1
                      fargan_ready := false
                      warmup_count := 0
                      output_primed := false
                      was_synced := false } frames).1,
         RxEvent.farganInit
           :: (processFrames synth rate_out
                { st with fargan_inits := st.fargan_inits + 1
                          fargan_ready := false
                          warmup_count := 0
                          output_primed := false
                          was_synced := false } frames).2) := by
  unfold rxIterate rxSyncTransition
  rw [h]
  simp

theorem rx_sync_falling_edge_reset_witness :
    rxIterate (fun _ _ => []) 16000
        { fargan_ready := true, warmup_count := 5, warmup_buf := [],
          output_primed := true, was_synced := true, fargan_inits := 3,
          resamp_frac := 0, resamp_prev := 0 } false []
      = ({ fargan_ready := false, warmup_count := 0, warmup_buf := [],
           output_primed := false, was_synced := false, fargan_inits := 4,
           resamp_frac := 0, resamp_prev := 0 }, [RxEvent.farganInit]) := by
  rw [rx_sync_falling_edge_reset (fun _ _ => []) 16000 _ [] (by decide)]
  decide

/-! ### C5: no speech output while FARGAN is warming up -/

/-- C5: while `fargan_ready` is false, processing a feature frame writes no
synthesised speech to the output: the frame is only buffered into
`warmup_buf` (at index `warmup_count`, which increments), and the only
write that can occur is the one-shot pre-roll silence burst, emitted
exactly when the fifth warm-up frame primes FARGAN with `output_primed`
still clear. -/
theorem rx_warmup_gate (synth : ℕ → List ℚ → List ℚ) (rate_out : ℕ)
    (st : RxState) (feat : List ℚ)
    (h : st.fargan_ready = false) (h4 : st.warmup_count ≤ 4) :
    (∀ pcm, RxEvent.writeSpeech pcm ∉ (processOneFrame synth rate_out st feat).2)
    ∧ (processOneFrame synth rate_out st feat).1.warmup_buf
        = putFrame st.warmup_buf st.warmup_count feat
    ∧ (processOneFrame synth rate_out st feat).1.warmup_count = st.warmup_count + 1
    ∧ ∀ n, RxEvent.writeSilence n ∈ (processOneFrame synth rate_out st feat).2 →
        st.warmup_count = 4 ∧ st.output_primed = false ∧ n = rxPrefill rate_out := by
  unfold processOneFrame
  rw [if_pos h]
  by_cases h5 : 5 ≤ st.warmup_count + 1
  · rw [if_pos h5]
    have h44 : st.warmup_count = 4 := by omega
    by_cases hp : st.output_primed = false
    · rw [if_pos hp]
      refine ⟨by simp, rfl, rfl, ?_⟩
      intro n hn
      simp only [List.mem_cons, List.mem_singleton] at hn
      rcases hn with hx | hx | hx
      · exact absurd hx (by simp)
      · simp only [RxEvent.writeSilence.injEq] at hx
        exact ⟨h44, hp, hx⟩
      · exact absurd hx (by simp)
    · rw [if_neg hp]
      refine ⟨by simp, rfl, rfl, ?_⟩
      intro n hn
      simp at hn
  · rw [if_neg h5]
    refine ⟨by simp, rfl, rfl, ?_⟩
    intro n hn
    simp at hn

theorem rx_warmup_gate_witness :
    RxEvent.writeSpeech []
      ∉ (processOneFrame (fun _ _ => []) 16000
          { fargan_ready := false, warmup_count := 0, warmup_buf := [],
            output_primed := false, was_synced := true, fargan_inits := 0,
            resamp_frac := 0, resamp_prev := 0 } [1, 2]).2 :=
  (rx_warmup_gate (fun _ _ => []) 16000
    { fargan_ready := false, warmup_count := 0, warmup_buf := [],
      output_primed := false, was_synced := true, fargan_inits := 0,
      resamp_frac := 0, resamp_prev := 0 } [1, 2] (by decide) (by decide)).1 []

/-! ### C6: TX feature accumulation invariant -/

/-- C6: in the TX inner loop, `feat_count` lies in `[0, 12]`: between blocks
it is at most 11, it equals exactly 12 immediately before every `rade_tx`
call (recorded in `countAtCall`), each call consumes exactly 12 accumulated
feature frames, and the count restarts from 0 after each call. -/
theorem tx_feat_count_invariant (frames : List (List ℚ)) (fc : ℕ)
    (buf : List (List ℚ))
    (h11 : fc ≤ 11) (hcb : fc ≤ buf.length) (hb12 : buf.length ≤ 12) :
    (txAccum fc buf frames).1 ≤ 11
    ∧ ∀ call ∈ (txAccum fc buf frames).2.2,
        call.countAtCall = 12 ∧ call.frames.length = 12 := by
  induction frames generalizing fc buf with
  | nil =>
    exact ⟨h11, by intro call hc; simp [txAccum] at hc⟩
  | cons f rest ih =>
    have hbuf1 : (putFrame buf fc f).length ≤ 12 ∧ fc + 1 ≤ (putFrame buf fc f).length := by
      unfold putFrame
      by_cases hlt : fc < buf.length
      · rw [if_pos hlt]
        simp only [List.length_set]
        omega
      · rw [if_neg hlt]
        simp only [List.length_append, List.length_singleton]
        omega
    by_cases h12 : 12 ≤ fc + 1
    · have hfc : fc = 11 := by omega
      have hlen : (putFrame buf fc f).length = 12 := by omega
      have hrec := ih 0 (putFrame buf fc f) (by omega) (by omega) (by omega)
      unfold txAccum
      rw [if_pos h12]
      refine ⟨hrec.1, ?_⟩
      intro call hc
      simp only [List.mem_cons] at hc
      rcases hc with rfl | hc
      · constructor
        · show fc + 1 = 12
          omega
        · show (putFrame buf fc f).length = 12
          exact hlen
      · exact hrec.2 call hc
    · have hrec := ih (fc + 1) (putFrame buf fc f) (by omega) (by omega) (by omega)
      unfold txAccum
      rw [if_neg h12]
      exact hrec

theorem tx_feat_count_invariant_witness :
    (txAccum 0 [] (List.replicate 13 ([] : List ℚ))).1 ≤ 11 :=
  (tx_feat_count_invariant (List.replicate 13 []) 0 []
    (by decide) (by decide) (by decide)).1

/-! ### C3: TX shutdown — one EOO frame, but the stream is not drained -/

/-- C3 (code bug): on TX termination with the output stream open, exactly
one EOO frame is produced and pushed through the resample/scale/clip/write
path — but the stream is then **not** drained: the trace contains no
`streamDrain` action and ends with `streamStop` (which discards the queued
playback data: `snd_pcm_drop` / `pa_simple_flush`) followed by
`streamStart`.  Running the playback-device semantics over the trace shows
every sample written by the shutdown block is discarded and none is played,
contradicting the claim (and the code's own comment, and the documented
`AudioStream::drain`). -/
theorem tx_finalize_no_drain (bpf : List (ℚ × ℚ) → List (ℚ × ℚ)) (bpfEnabled : Bool)
    (eoo : List (ℚ × ℚ)) (tx_scale : ℚ) (rate_out : ℕ) (frac prev : ℚ) :
    (txFinalize bpf bpfEnabled eoo tx_scale rate_out frac prev true true).count
        TxEvent.radeTxEoo = 1
    ∧ TxEvent.streamDrain
        ∉ txFinalize bpf bpfEnabled eoo tx_scale rate_out frac prev true true
    ∧ (∃ pre, txFinalize bpf bpfEnabled eoo tx_scale rate_out frac prev true true
        = pre ++ [TxEvent.streamStop, TxEvent.streamStart])
    ∧ (devRun ⟨0, 0, 0⟩
        (txFinalize bpf bpfEnabled eoo tx_scale rate_out frac prev true true)).played = 0
    ∧ (devRun ⟨0, 0, 0⟩
        (txFinalize bpf bpfEnabled eoo tx_scale rate_out frac prev true true)).discarded
      = writtenTotal (txFinalize bpf bpfEnabled eoo tx_scale rate_out frac prev true true) := by
  unfold txFinalize
  rw [if_pos (show (true && true) = true from rfl)]
  by_cases hb : bpfEnabled
  · rw [if_pos hb, if_pos hb]
    refine ⟨?_, ?_, ⟨[TxEvent.radeTxEoo, TxEvent.bpfApplied,
      TxEvent.audioWrite (write_real_to_output tx_scale RADE_FS rate_out frac prev
        (bpf eoo)).1], ?_⟩, ?_, ?_⟩
    · simp [List.count_cons]
    · simp
    · simp
    · simp [devRun, devApply]
    · simp [devRun, devApply, writtenTotal]
  · rw [if_neg hb, if_neg hb]
    refine ⟨?_, ?_, ⟨[TxEvent.radeTxEoo,
      TxEvent.audioWrite (write_real_to_output tx_scale RADE_FS rate_out frac prev eoo).1],
      ?_⟩, ?_, ?_⟩
    · simp [List.count_cons]
    · simp
    · simp
    · simp [devRun, devApply]
    · simp [devRun, devApply, writtenTotal]

/-! ### C7: Hilbert transform real-branch delay -/

lemma idx127_val (n : ℕ) : (idx127 n).val = n % 127 := rfl

lemma idx127_eq_iff {a b : ℕ} : idx127 a = idx127 b ↔ a % 127 = b % 127 := by
  unfold idx127
  rw [Fin.mk.injEq]

lemma ringVal_succ (xs : List ℚ) (k : ℕ) (j : ℕ) (hj : j < 127) :
    ringVal xs (k + 1) j = if j = k % 127 then xs.getD k 0 else ringVal xs k j := by
  by_cases hjm : j = k % 127
  · rw [if_pos hjm]
    unfold ringVal
    by_cases hw : k % 127 = 126
    · have h1 : (k + 1) % 127 = 0 := by omega
      rw [if_neg (show ¬ j < (k + 1) % 127 by omega),
          if_pos (show 127 ≤ k + 1 by omega),
          show k + 1 - (k + 1) % 127 + j - 127 = k from by omega]
    · have h1 : (k + 1) % 127 = k % 127 + 1 := by omega
      rw [if_pos (show j < (k + 1) % 127 by omega),
          show k + 1 - (k + 1) % 127 + j = k from by omega]
  · rw [if_neg hjm]
    unfold ringVal
    by_cases hw : k % 127 = 126
    · have h1 : (k + 1) % 127 = 0 := by omega
      rw [if_neg (show ¬ j < (k + 1) % 127 by omega),
          if_pos (show 127 ≤ k + 1 by omega),
          if_pos (show j < k % 127 by omega),
          show k + 1 - (k + 1) % 127 + j - 127 = k - k % 127 + j from by omega]
    · have h1 : (k + 1) % 127 = k % 127 + 1 := by omega
      by_cases hjlt : j < k % 127
      · rw [if_pos (show j < (k + 1) % 127 by omega), if_pos hjlt,
            show k + 1 - (k + 1) % 127 + j = k - k % 127 + j from by omega]
      · rw [if_neg (show ¬ j < (k + 1) % 127 by omega), if_neg hjlt]
        by_cases hk : 127 ≤ k
        · rw [if_pos (show 127 ≤ k + 1 by omega), if_pos hk,
              show k + 1 - (k + 1) % 127 + j - 127 = k - k % 127 + j - 127 from by omega]
        · rw [if_neg (show ¬ 127 ≤ k + 1 by omega), if_neg hk]

lemma ringVal_read (xs : List ℚ) (k : ℕ) :
    ringVal xs (k + 1) ((k % 127 + 64) % 127)
      = if k < 63 then 0 else xs.getD (k - 63) 0 := by
  set r := (k % 127 + 64) % 127 with hr
  unfold ringVal
  by_cases h63 : k < 63
  · rw [if_pos h63, if_neg (show ¬ r < (k + 1) % 127 by omega),
        if_neg (show ¬ 127 ≤ k + 1 by omega)]
  · rw [if_neg h63]
    by_cases hw : 63 ≤ k % 127
    · by_cases hww : k % 127 = 126
      · rw [if_neg (show ¬ r < (k + 1) % 127 by omega),
            if_pos (show 127 ≤ k + 1 by omega),
            show k + 1 - (k + 1) % 127 + r - 127 = k - 63 from by omega]
      · rw [if_pos (show r < (k + 1) % 127 by omega),
            show k + 1 - (k + 1) % 127 + r = k - 63 from by omega]
    · rw [if_neg (show ¬ r < (k + 1) % 127 by omega),
          if_pos (show 127 ≤ k + 1 by omega),
          show k + 1 - (k + 1) % 127 + r - 127 = k - 63 from by omega]

lemma hilbert_step_delay (coeffs : Fin 127 → ℚ) (xs : List ℚ) (k : ℕ)
    (st : HilbState) (x : ℚ)
    (hd : st.dpos = k % 127)
    (hD : ∀ j : Fin 127, st.delay j = ringVal xs k j.val)
    (hx : xs.getD k 0 = x) :
    (hilbert_step coeffs st x).1.dpos = (k + 1) % 127
    ∧ (∀ j : Fin 127, (hilbert_step coeffs st x).1.delay j = ringVal xs (k + 1) j.val)
    ∧ ((hilbert_step coeffs st x).2.1 = if k < 63 then 0 else xs.getD (k - 63) 0) := by
  have hDelta : ∀ j : Fin 127,
      Function.update st.delay (idx127 st.dpos) x j = ringVal xs (k + 1) j.val := by
    intro j
    rw [Function.update_apply]
    rw [ringVal_succ xs k j.val j.isLt]
    by_cases hj : j = idx127 st.dpos
    · rw [if_pos hj, if_pos]
      · exact hx.symm
      · rw [hj, idx127_val, hd]
        omega
    · rw [if_neg hj, if_neg, hD j]
      intro hc
      apply hj
      have : j = idx127 j.val := by
        unfold idx127
        apply Fin.ext
        simp [Nat.mod_eq_of_lt j.isLt]
      rw [this, hd, idx127_eq_iff, hc]
  refine ⟨?_, ?_, ?_⟩
  · show (st.dpos + 1) % 127 = (k + 1) % 127
    rw [hd]
    omega
  · intro j
    exact hDelta j
  · show Function.update st.delay (idx127 st.dpos) x (idx127 (st.dpos + 127 - 63))
      = if k < 63 then 0 else xs.getD (k - 63) 0
    rw [hDelta (idx127 (st.dpos + 127 - 63)), idx127_val, hd]
    rw [show k % 127 + 127 - 63 = k % 127 + 64 from by omega]
    exact ringVal_read xs k

lemma hilbert_run_spec (coeffs : Fin 127 → ℚ) (xs : List ℚ) :
    ∀ (tail : List ℚ) (k : ℕ) (st : HilbState),
    st.dpos = k % 127 →
    (∀ j : Fin 127, st.delay j = ringVal xs k j.val) →
    xs.drop k = tail →
    ∀ i, i < tail.length →
      ((hilbert_run coeffs st tail).2.getD i (0, 0)).1
        = if k + i < 63 then 0 else xs.getD (k + i - 63) 0 := by
  intro tail
  induction tail with
  | nil => intro k st _ _ _ i hi; exact absurd hi (by simp)
  | cons x rest ih =>
    intro k st hd hD hdrop i hi
    have hxk : xs.getD k 0 = x := by
      rw [List.getD_eq_getElem?_getD]
      have h0 : (xs.drop k)[0]? = xs[k]? := by
        rw [List.getElem?_drop, Nat.add_zero]
      rw [← h0, hdrop]
      simp
    have hdrop1 : xs.drop (k + 1) = rest := by
      have h1 : xs.drop (k + 1) = (xs.drop k).drop 1 := by
        rw [List.drop_drop]
      rw [h1, hdrop]
      rfl
    obtain ⟨hd', hD', hout⟩ := hilbert_step_delay coeffs xs k st x hd hD hxk
    show ((((hilbert_run coeffs (hilbert_step coeffs st x).1 rest).1,
        (hilbert_step coeffs st x).2
          :: (hilbert_run coeffs (hilbert_step coeffs st x).1 rest).2) :
        HilbState × List (ℚ × ℚ)).2.getD i (0, 0)).1 = _
    rcases i with _ | i'
    · simpa using hout
    · have hrec := ih (k + 1) (hilbert_step coeffs st x).1 hd' hD' hdrop1 i'
        (by simpa using hi)
    
      have harith : k + (i' + 1) = k + 1 + i' := by omega
      simpa [harith] using hrec

lemma hilbert_run_append (coeffs : Fin 127 → ℚ) :
    ∀ (a b : List ℚ) (st : HilbState),
    hilbert_run coeffs st (a ++ b)
      = ((hilbert_run coeffs (hilbert_run coeffs st a).1 b).1,
         (hilbert_run coeffs st a).2
           ++ (hilbert_run coeffs (hilbert_run coeffs st a).1 b).2) := by
  intro a
  induction a with
  | nil => intro b st; rfl
  | cons x rest ih =>
    intro b st
    simp only [List.cons_append, hilbert_run, List.append_eq]
    rw [ih b (hilbert_step coeffs st x).1]

lemma hilbert_chunks_eq_run (coeffs : Fin 127 → ℚ) :
    ∀ (chunks : List (List ℚ)) (st : HilbState),
    hilbert_chunks coeffs st chunks = hilbert_run coeffs st chunks.flatten := by
  intro chunks
  induction chunks with
  | nil => intro st; rfl
  | cons c cs ih =>
    intro st
    simp only [hilbert_chunks, List.flatten_cons]
    rw [hilbert_run_append coeffs c cs.flatten st, ih]

/-- C7: for the streaming Hilbert transform started from the reset state
(zeroed rings, both write indices 0), the real part of the `i`-th complex
output — counting all samples across consecutive `hilbert_process` calls —
equals the `(i - 63)`-th input sample for `i ≥ 63` and equals 0 for
`i < 63`: the real branch is delayed by exactly the 63-sample FIR group
delay. -/
theorem hilbert_real_branch_delay (coeffs : Fin 127 → ℚ)
    (chunks : List (List ℚ)) (i : ℕ) (hi : i < chunks.flatten.length) :
    ((hilbert_chunks coeffs hilbInit chunks).2.getD i (0, 0)).1
      = if i < 63 then 0 else chunks.flatten.getD (i - 63) 0 := by
  rw [hilbert_chunks_eq_run]
  have hinv : ∀ j : Fin 127, hilbInit.delay j = ringVal chunks.flatten 0 j.val := by
    intro j
    unfold hilbInit ringVal
    rw [if_neg (by omega), if_neg (by omega)]
  have h := hilbert_run_spec coeffs chunks.flatten chunks.flatten 0 hilbInit rfl hinv
    (by rw [List.drop_zero]) i hi
  simpa using h

theorem hilbert_real_branch_delay_witness :
    (((hilbert_chunks (fun _ => 0) hilbInit [[5], [7]]).2.getD 1 (0, 0)).1 : ℚ) = 0 := by
  have h := hilbert_real_branch_delay (fun _ => 0) [[5], [7]] 1 (by decide)
  rw [h]
  norm_num

/-! ### C9: WAV recorder header back-patch -/

lemma wav_data_length (samples : List ℤ) :
    ((samples.map (fun s => le16 (u16_of_s16 s))).flatten).length = 2 * samples.length := by
  induction samples with
  | nil => rfl
  | cons s rest ih =>
    simp only [List.map_cons, List.flatten_cons, List.length_append, ih, List.length_cons]
    simp only [le16, List.length_cons, List.length_nil]
    omega

lemma wav_header_length (sr ch : ℕ) : (wav_header sr ch).length = 44 := by
  simp [wav_header, le16, le32]

lemma wavWrite_open (b : List ℕ) (d sr ch : ℕ) (samples : List ℤ) (hd : d < 4294967296) :
    wavWrite { isOpen := true, bytes := b, sampleRate := sr, channels := ch, dataBytes := d }
        samples
      = { isOpen := true,
          bytes := b ++ (samples.map (fun s => le16 (u16_of_s16 s))).flatten,
          sampleRate := sr, channels := ch,
          dataBytes := (d + 2 * samples.length) % 4294967296 } := by
  unfold wavWrite
  by_cases h0 : samples.length = 0
  · rw [if_pos h0]
    have hnil : samples = [] := List.length_eq_zero.mp h0
    subst hnil
    simp [Nat.mod_eq_of_lt hd]
  · rw [if_neg h0, if_neg (by simp)]

lemma wavWriteMany_open (chunks : List (List ℤ)) :
    ∀ (b : List ℕ) (d sr ch : ℕ), d < 4294967296 →
    wavWriteMany
        { isOpen := true, bytes := b, sampleRate := sr, channels := ch, dataBytes := d }
        chunks
      = { isOpen := true,
          bytes := b ++ (chunks.flatten.map (fun s => le16 (u16_of_s16 s))).flatten,
          sampleRate := sr, channels := ch,
          dataBytes := (d + 2 * chunks.flatten.length) % 4294967296 } := by
  induction chunks with
  | nil =>
    intro b d sr ch hd
    simp only [wavWriteMany, List.foldl_nil, List.flatten_nil, List.map_nil,
      List.append_nil, List.length_nil]
    rw [Nat.mul_zero, Nat.add_zero, Nat.mod_eq_of_lt hd]
  | cons c rest ih =>
    intro b d sr ch hd
    show wavWriteMany
        (wavWrite { isOpen := true, bytes := b, sampleRate := sr, channels := ch, dataBytes := d } c)
        rest = _
    rw [wavWrite_open b d sr ch c hd]
    rw [ih _ _ sr ch (Nat.mod_lt _ (by norm_num))]
    simp only [WavRec.mk.injEq, true_and]
    constructor
    · rw [List.flatten_cons, List.map_append, List.flatten_append, List.append_assoc]
    · rw [List.flatten_cons, List.length_append]
      omega

lemma wavClose_open (b : List ℕ) (sr ch d : ℕ) :
    wavClose { isOpen := true, bytes := b, sampleRate := sr, channels := ch, dataBytes := d }
      = { isOpen := false,
          bytes := overwriteAt 40 (le32 d)
            (overwriteAt 4 (le32 ((36 + d) % 4294967296)) b),
          sampleRate := sr, channels := ch, dataBytes := 0 } := by
  unfold wavClose
  rw [if_neg (by simp)]

lemma overwriteAt_length (off : ℕ) (repl l : List ℕ) (h : off + repl.length ≤ l.length) :
    (overwriteAt off repl l).length = l.length := by
  unfold overwriteAt
  simp only [List.length_append, List.length_take, List.length_drop]
  omega

lemma overwriteAt_read (off : ℕ) (repl l : List ℕ) (h : off + repl.length ≤ l.length) :
    ((overwriteAt off repl l).drop off).take repl.length = repl := by
  unfold overwriteAt
  rw [List.append_assoc]
  have hl : (l.take off).length = off := by
    simp only [List.length_take]
    omega
  rw [List.drop_append_of_le_length (by omega : off ≤ (l.take off).length)]
  rw [List.drop_take, show off - off = 0 from by omega, List.take_zero, List.nil_append]
  exact List.take_left repl _

lemma overwriteAt_read_before (off : ℕ) (repl l : List ℕ) (off2 n : ℕ)
    (h2 : off2 + n ≤ off) (h3 : off ≤ l.length) :
    ((overwriteAt off repl l).drop off2).take n = (l.drop off2).take n := by
  unfold overwriteAt
  rw [List.append_assoc]
  have hl : (l.take off).length = off := by
    simp only [List.length_take]
    omega
  rw [List.drop_append_of_le_length (by omega : off2 ≤ (l.take off).length)]
  rw [List.take_append_of_le_length (by
    simp only [List.length_drop, List.length_take]
    omega : n ≤ ((l.take off).drop off2).length)]
  rw [List.drop_take, List.take_take]
  congr 1
  omega

/-- C9: after `N` 16-bit mono samples have been written and `close()` is
called, the RIFF size field at offset 4 holds `36 + 2N`, the data size field
at offset 40 holds `2N`, the total file size is `44 + 2N` bytes; and close
is idempotent — any subsequent `close()` or `write()` is a no-op. -/
theorem wav_recorder_backpatch (sr : ℕ) (chunks : List (List ℤ))
    (hN : 36 + 2 * chunks.flatten.length < 4294967296) :
    (wavClose (wavWriteMany (wavOpen sr 1) chunks)).bytes.length
        = 44 + 2 * chunks.flatten.length
    ∧ ((wavClose (wavWriteMany (wavOpen sr 1) chunks)).bytes.drop 4).take 4
        = le32 (36 + 2 * chunks.flatten.length)
    ∧ ((wavClose (wavWriteMany (wavOpen sr 1) chunks)).bytes.drop 40).take 4
        = le32 (2 * chunks.flatten.length)
    ∧ wavClose (wavClose (wavWriteMany (wavOpen sr 1) chunks))
        = wavClose (wavWriteMany (wavOpen sr 1) chunks)
    ∧ (∀ s, wavWrite (wavClose (wavWriteMany (wavOpen sr 1) chunks)) s
        = wavClose (wavWriteMany (wavOpen sr 1) chunks)) := by
  have hrun := wavWriteMany_open chunks (wav_header sr 1) 0 sr 1 (by norm_num)
  have hmod : (0 + 2 * chunks.flatten.length) % 4294967296
      = 2 * chunks.flatten.length := by omega
  rw [hmod] at hrun
  have hstate : wavWriteMany (wavOpen sr 1) chunks
      = { isOpen := true,
          bytes := wav_header sr 1
            ++ (chunks.flatten.map (fun s => le16 (u16_of_s16 s))).flatten,
          sampleRate := sr, channels := 1,
          dataBytes := 2 * chunks.flatten.length } := hrun
  rw [hstate, wavClose_open]
  have hmod2 : (36 + 2 * chunks.flatten.length) % 4294967296
      = 36 + 2 * chunks.flatten.length := by omega
  rw [hmod2]
  set N := chunks.flatten.length with hNdef
  set B := wav_header sr 1 ++ (chunks.flatten.map (fun s => le16 (u16_of_s16 s))).flatten
    with hB
  have hBlen : B.length = 44 + 2 * N := by
    rw [hB, List.length_append, wav_header_length, wav_data_length]
  have h4 : (le32 (36 + 2 * N)).length = 4 := rfl
  have h4b : (le32 (2 * N)).length = 4 := rfl
  have hB1len : (overwriteAt 4 (le32 (36 + 2 * N)) B).length = B.length :=
    overwriteAt_length 4 _ B (by rw [hBlen, h4]; omega)
  refine ⟨?_, ?_, ?_, ?_, ?_⟩
  · show (overwriteAt 40 (le32 (2 * N)) (overwriteAt 4 (le32 (36 + 2 * N)) B)).length
      = 44 + 2 * N
    rw [overwriteAt_length 40 _ _ (by rw [h4b, hB1len, hBlen]; omega), hB1len, hBlen]
  · show ((overwriteAt 40 (le32 (2 * N)) (overwriteAt 4 (le32 (36 + 2 * N)) B)).drop 4).take 4
      = le32 (36 + 2 * N)
    rw [overwriteAt_read_before 40 _ _ 4 4 (by omega) (by rw [hB1len, hBlen]; omega)]
    have hr := overwriteAt_read 4 (le32 (36 + 2 * N)) B (by rw [h4, hBlen]; omega)
    rw [h4] at hr
    exact hr
  · show ((overwriteAt 40 (le32 (2 * N)) (overwriteAt 4 (le32 (36 + 2 * N)) B)).drop 40).take 4
      = le32 (2 * N)
    have hr := overwriteAt_read 40 (le32 (2 * N)) (overwriteAt 4 (le32 (36 + 2 * N)) B)
      (by rw [h4b, hB1len, hBlen]; omega)
    rw [h4b] at hr
    exact hr
  · show wavClose _ = _
    unfold wavClose
    rw [if_pos rfl]
  · intro s
    unfold wavWrite
    by_cases h0 : s.length = 0
    · rw [if_pos h0]
    · rw [if_neg h0, if_pos rfl]

theorem wav_recorder_backpatch_witness :
    (wavClose (wavWriteMany (wavOpen 8000 1) [[(1 : ℤ), -2], [3]])).bytes.length
      = 44 + 2 * ([[(1 : ℤ), -2], [3]].flatten.length) :=
  (wav_recorder_backpatch 8000 [[(1 : ℤ), -2], [3]] (by norm_num)).1
